import Mathlib

/-!
Verification of the Verboo vocabulary-database build pipeline
(`python-data/build_vocabulary_db.py`).

The Python program is shallowly embedded:
* Python `str` values are Lean `String`s; operations that the Python code
  performs on strings (`lower`, `strip`, `split`, membership, `in` substring
  tests) are re-implemented structurally on the underlying `List Char` so
  that everything is executable and kernel-reducible.  Unicode-only corner
  cases of `str.lower` / `\d` are modelled at ASCII granularity, matching the
  ASCII data the program consumes.
* Python `dict`s (`self.words`, `self.coca_ranks`, `self.cefr_data`) are
  association lists whose keys are unique, with in-place value update
  preserving position, exactly like CPython dicts.
* Python `float` levels (SQLite `AVG`) are modelled as rationals `ℚ`;
  Python `round` is round-half-to-even.
* Fallible code (the tuple unpacking in `_normalize_pos`, the UNIQUE
  constraint of the SQLite writer) is modelled in `Except String`.
-/

set_option maxRecDepth 4000

/-! ## Basic string helpers (Python `str` operations) -/

/-- `str.lower()` at ASCII granularity (`Char.toLower` lowers `A`-`Z`). -/
def pyLower (s : String) : String :=
  ⟨s.data.map Char.toLower⟩

/-- `str.strip()`: drop leading and trailing whitespace. -/
def pyStrip (s : String) : String :=
  ⟨((s.data.dropWhile Char.isWhitespace).reverse.dropWhile Char.isWhitespace).reverse⟩

/-- `str.split(sep)` for a one-character separator: split at every
occurrence, keeping empty pieces (CPython semantics). -/
def splitCharAux (sep : Char) : List Char → List Char → List String
  | [], cur => [⟨cur.reverse⟩]
  | c :: rest, cur =>
    if c = sep then ⟨cur.reverse⟩ :: splitCharAux sep rest []
    else splitCharAux sep rest (c :: cur)

/-- `s.split(sep)` for a one-character separator. -/
def strSplitChar (sep : Char) (s : String) : List String :=
  splitCharAux sep s.data []

/-- `str.split()` with no argument: split on whitespace runs, dropping
empty pieces. -/
def wordsAux : List Char → List Char → List String
  | [], cur => if cur = [] then [] else [⟨cur.reverse⟩]
  | c :: rest, cur =>
    if c.isWhitespace then
      if cur = [] then wordsAux rest []
      else ⟨cur.reverse⟩ :: wordsAux rest []
    else wordsAux rest (c :: cur)

/-- `s.split()` (whitespace-run splitting). -/
def splitWhitespaceWords (s : String) : List String :=
  wordsAux s.data []

/-- Does `hay` start with `needle`? -/
def chStartsWith : List Char → List Char → Bool
  | [], _ => true
  | _ :: _, [] => false
  | a :: as, b :: bs => decide (a = b) && chStartsWith as bs

/-- Does `hay` contain `needle` as a contiguous subsequence? -/
def chContainsSeq (needle : List Char) : List Char → Bool
  | [] => decide (needle = [])
  | c :: rest => chStartsWith needle (c :: rest) || chContainsSeq needle rest

/-- Python `sub in s` substring test. -/
def strContains (s sub : String) : Bool :=
  chContainsSeq sub.data s.data

/-- Accumulate the value of a digit string; `none` on a non-digit. -/
def digitsValAux : List Char → Nat → Option Nat
  | [], acc => some acc
  | c :: rest, acc =>
    if c.isDigit then digitsValAux rest (acc * 10 + (c.toNat - '0'.toNat))
    else none

/-- Python `int(s)` on a decimal string: surrounding whitespace allowed, one
optional sign, at least one digit; `none` models the `ValueError`. -/
def pyInt (s : String) : Option Int :=
  match (pyStrip s).data with
  | '+' :: ds => if ds = [] then none else (digitsValAux ds 0).map Int.ofNat
  | '-' :: ds => if ds = [] then none else (digitsValAux ds 0).map (fun n => -(Int.ofNat n))
  | [] => none
  | ds => (digitsValAux ds 0).map Int.ofNat

/-- The seen-set deduplication loop of `_normalize_pos`: keep the first
occurrence of each element, skipping anything already in `seen`. -/
def dedupSeen (seen : List String) : List String → List String
  | [] => []
  | x :: xs => if x ∈ seen then dedupSeen seen xs else x :: dedupSeen (x :: seen) xs

/-- Stable insertion: `x` moves past `y` exactly when `goesAfter x y`. -/
def insStable {α : Type} (goesAfter : α → α → Bool) (x : α) : List α → List α
  | [] => [x]
  | y :: ys => if goesAfter x y then y :: insStable goesAfter x ys else x :: y :: ys

/-- Stable sort (insertion sort).  Python's `list.sort` is stable, and a
stable sort's output is uniquely determined, so this is extensionally the
sort the program performs. -/
def sortStable {α : Type} (goesAfter : α → α → Bool) (l : List α) : List α :=
  l.foldr (insStable goesAfter) []

/-! ## Fixed tables of the program -/

/-- `POS_STANDARD` dictionary: raw part-of-speech code to canonical tag. -/
def POS_STANDARD (code : String) : Option String :=
  if code = "n" then some "n"
  else if code = "v" then some "v"
  else if code = "a" then some "adj"
  else if code = "s" then some "adj"
  else if code = "r" then some "adv"
  else if code = "noun" then some "n"
  else if code = "verb" then some "v"
  else if code = "adj" then some "adj"
  else if code = "adjective" then some "adj"
  else if code = "adv" then some "adv"
  else if code = "adverb" then some "adv"
  else if code = "prep" then some "prep"
  else if code = "preposition" then some "prep"
  else if code = "pron" then some "pron"
  else if code = "pronoun" then some "pron"
  else if code = "conj" then some "conj"
  else if code = "conjunction" then some "conj"
  else if code = "det" then some "det"
  else if code = "determiner" then some "det"
  else if code = "interj" then some "interj"
  else if code = "interjection" then some "interj"
  else if code = "art" then some "art"
  else if code = "article" then some "art"
  else if code = "vt" then some "v"
  else if code = "vi" then some "v"
  else if code = "vt." then some "v"
  else if code = "vi." then some "v"
  else if code = "n." then some "n"
  else if code = "v." then some "v"
  else if code = "adj." then some "adj"
  else if code = "adv." then some "adv"
  else if code = "j" then some "adj"
  else if code = "t" then some "v"
  else if code = "u" then some "unknown"
  else none

/-- `CEFR_LEVEL_MAP`: integer level to CEFR band. -/
def CEFR_LEVEL_MAP (k : Int) : Option String :=
  if k = 1 then some "A1"
  else if k = 2 then some "A2"
  else if k = 3 then some "B1"
  else if k = 4 then some "B2"
  else if k = 5 then some "C1"
  else if k = 6 then some "C2"
  else none

/-- Python `round` on the (exact) value of a float: round half to even.
Expressed on the numerator and denominator so that it is kernel-executable:
`q.num / q.den` is `⌊q⌋` (see `Rat.floor_def`) and `r2 = 2 * q.den * fract q`,
so the three branches are `fract q < 1/2`, `fract q > 1/2`, and the
half-to-even tie. -/
def pyRound (q : ℚ) : Int :=
  let f := q.num / (q.den : Int)
  let r2 := 2 * (q.num - f * (q.den : Int))
  if r2 < (q.den : Int) then f
  else if (q.den : Int) < r2 then f + 1
  else if f % 2 = 0 then f else f + 1

/-- `cefr_from_float`: non-positive level yields `""`; otherwise round to
the nearest integer level and map it, `""` when unmapped. -/
def cefr_from_float (level : ℚ) : String :=
  if level ≤ 0 then ""
  else (CEFR_LEVEL_MAP (pyRound level)).getD ""

/-! ## Data model: `WordEntry` and the in-memory `self.words` dict -/

/-- `WordEntry` dataclass. -/
structure WordEntry where
  word : String
  phonetic : String := ""
  definition_en : String := ""
  definition_cn : String := ""
  pos : String := ""
  cefr_level : String := ""
  collins_star : Int := 0
  coca_rank : Int := 0
  bnc_rank : Int := 0
  is_oxford_3000 : Bool := false
  is_cet4 : Bool := false
  is_cet6 : Bool := false
  is_zk : Bool := false
  is_gk : Bool := false
  is_ky : Bool := false
  is_toefl : Bool := false
  is_ielts : Bool := false
  is_gre : Bool := false
  exchange : String := ""
  data_sources : String := ""
deriving DecidableEq, Repr

/-- `self.words`: a dict modelled as an association list with unique keys. -/
abbrev WordsMap := List (String × WordEntry)

/-- Dict lookup (`d[k]` / `k in d`). -/
def lookupKey {β : Type} (w : String) : List (String × β) → Option β
  | [] => none
  | p :: ps => if p.1 = w then some p.2 else lookupKey w ps

/-- In-place mutation of the entry stored under an existing key. -/
def updateAt (w : String) (f : WordEntry → WordEntry) (l : WordsMap) : WordsMap :=
  l.map (fun p => (p.1, if p.1 = w then f p.2 else p.2))

/-- Dict assignment `d[k] = v`: replace in place if present, else append
(CPython dicts preserve insertion order). -/
def dictSet (k : String) (v : WordEntry) : WordsMap → WordsMap
  | [] => [(k, v)]
  | p :: ps => if p.1 = k then (p.1, v) :: ps else p :: dictSet k v ps

/-- The keys of an association list, in order. -/
def keysOf {β : Type} (l : List (String × β)) : List String :=
  l.map Prod.fst

/-! ## Lexical validity filter (`_is_valid_word`) -/

/-- `STOPWORDS`: noise / stop-word list. -/
def STOPWORDS : List String :=
  ["aa", "aaa", "aaaa", "bb", "bbb", "cc", "ccc", "dd", "ddd",
   "ee", "eee", "ff", "fff", "gg", "ggg", "hh", "hhh", "ii", "iii",
   "jj", "jjj", "kk", "kkk", "ll", "lll", "mm", "mmm", "nn", "nnn",
   "oo", "ooo", "pp", "ppp", "qq", "qqq", "rr", "rrr", "ss", "sss",
   "tt", "ttt", "uu", "uuu", "vv", "vvv", "ww", "www", "xx", "xxx",
   "yy", "yyy", "zz", "zzz",
   "zzzzz", "hmmm", "hmm", "umm", "ummm", "uhh", "uhhh", "ahh", "ahhh",
   "ohh", "ohhh", "ehh", "shhh", "shh", "psst", "tsk", "ugh", "argh",
   "blah", "meh", "duh", "huh", "nah", "yeah", "yep", "yup", "nope",
   "lol", "omg", "wtf", "btw", "idk", "imo", "imho", "fyi", "asap",
   "brb", "ttyl", "rofl", "lmao", "smh", "tbh", "tho", "thx", "pls",
   "plz", "cuz", "coz", "gonna", "wanna", "gotta", "kinda", "sorta",
   "etc", "vs", "ie", "eg", "nb", "ps", "aka", "diy", "faq"]

/-- `ALLOWED_SINGLE_LETTERS`. -/
def ALLOWED_SINGLE_LETTERS : List String := ["i", "a"]

/-- `ALLOWED_TWO_LETTERS`. -/
def ALLOWED_TWO_LETTERS : List String :=
  ["am", "an", "as", "at", "be", "by", "do", "go", "he", "if",
   "in", "is", "it", "me", "my", "no", "of", "on", "or", "so",
   "to", "up", "us", "we", "ok", "ox", "ax"]

/-- In Python `re`, `$` also matches just before one newline at the very end
of the string; `dropNl` strips that optional trailing newline. -/
def dropNl (l : List Char) : List Char :=
  if l.getLast? = some '\n' then l.dropLast else l

/-- Pattern 1, regex of one or more chars 0-9 anchored at both ends:
a non-empty all-digit string (up to a trailing newline absorbed by the
end anchor). -/
def pat_digits (l : List Char) : Bool :=
  decide (dropNl l ≠ []) && (dropNl l).all Char.isDigit

/-- Pattern 2, anchored one-or-more chars outside a-zA-Z: non-empty with no
ASCII letter (a trailing newline is itself a non-letter, so no `dropNl`
is needed). -/
def pat_noalpha (l : List Char) : Bool :=
  decide (l ≠ []) && l.all (fun c => !c.isAlpha)

/-- Pattern 3, a single char of a-zA-Z anchored at both ends. -/
def pat_single (l : List Char) : Bool :=
  match dropNl l with
  | [c] => c.isAlpha
  | _ => false

/-- Pattern 4, dot-star digit dot-star under `re.match`: only anchored on
the left, and `.` does not cross a newline, so it fires exactly when a
digit occurs before the first newline. -/
def pat_hasdigit (l : List Char) : Bool :=
  (l.takeWhile (fun c => decide (c ≠ '\n'))).any Char.isDigit

/-- Pattern 5, a captured char followed by one or more backreferences to it,
anchored: some non-newline char repeated at least twice filling the string. -/
def pat_repeat (l : List Char) : Bool :=
  match dropNl l with
  | [] => false
  | c :: rest =>
    decide (c ≠ '\n') && decide (rest ≠ []) && rest.all (fun d => decide (d = c))

/-- Pattern 6, one or two chars of a-z anchored at both ends. -/
def pat_smallword (l : List Char) : Bool :=
  (decide ((dropNl l).length = 1) || decide ((dropNl l).length = 2)) &&
    (dropNl l).all (fun c => decide ('a' ≤ c) && decide (c ≤ 'z'))

/-- `_is_valid_word`: stop-word check, the single- and two-letter special
cases, then the `EXCLUDE_PATTERNS` in order. -/
def is_valid_word (word : String) : Bool :=
  let wl := pyLower word
  if decide (wl ∈ STOPWORDS) then false
  else if decide (word.length = 1) then decide (wl ∈ ALLOWED_SINGLE_LETTERS)
  else if decide (word.length = 2) then decide (wl ∈ ALLOWED_TWO_LETTERS)
  else if pat_digits wl.data || pat_noalpha wl.data || pat_single wl.data ||
          pat_hasdigit wl.data || pat_repeat wl.data || pat_smallword wl.data then false
  else true

/-- The rejection predicate exactly as the specification words it (for the
refinement comparison of claim C4): a flat disjunction of the stop-word
test, the unlisted single character, the unlisted two-character form, and
the exclusion patterns, the bare 1-2 letter pattern qualified by the
allow-lists. -/
def spec_reject (word : String) : Bool :=
  let wl := pyLower word
  decide (wl ∈ STOPWORDS)
  || (decide (word.length = 1) && !decide (wl ∈ ALLOWED_SINGLE_LETTERS))
  || (decide (word.length = 2) && !decide (wl ∈ ALLOWED_TWO_LETTERS))
  || pat_digits wl.data || pat_noalpha wl.data || pat_hasdigit wl.data || pat_repeat wl.data
  || (pat_smallword wl.data && !decide (wl ∈ ALLOWED_SINGLE_LETTERS) &&
       !decide (wl ∈ ALLOWED_TWO_LETTERS))

/-! ## Part-of-speech normalizer (`_normalize_pos`) -/

/-- One iteration of the parsing loop of `_normalize_pos` over a
slash-piece: `pos_code, freq_str = part.split(':')` raises a `ValueError`
unless the split has exactly two pieces; the `int` conversion failure is
caught and defaults the frequency to 0; unmapped and `unknown` codes are
dropped. -/
def parsePart (part : String) : Except String (Option (String × Int)) :=
  if decide (':' ∈ part.data) then
    match strSplitChar ':' part with
    | [a, b] =>
      let code := pyLower (pyStrip a)
      let freq : Int := match pyInt b with | some n => n | none => 0
      let std := (POS_STANDARD code).getD ""
      if std ≠ "" ∧ std ≠ "unknown" then Except.ok (some (std, freq))
      else Except.ok none
    | _ => Except.error "ValueError: too many values to unpack"
  else Except.ok none

/-- The full parsing loop of `_normalize_pos`, collecting `(tag, freq)`
pairs in order and propagating the first `ValueError`. -/
def collectParts : List String → Except String (List (String × Int))
  | [] => Except.ok []
  | p :: ps =>
    match parsePart p with
    | Except.error msg => Except.error msg
    | Except.ok none => collectParts ps
    | Except.ok (some x) =>
      match collectParts ps with
      | Except.error msg => Except.error msg
      | Except.ok xs => Except.ok (x :: xs)

/-- Sort `(tag, freq)` pairs by descending frequency (Python
`sort(key=-freq)`, stable). -/
def sortByFreqDesc (l : List (String × Int)) : List (String × Int) :=
  sortStable (fun x y => decide (x.2 < y.2)) l

/-- `_normalize_pos`.  The `ValueError` escaping from multi-colon pieces is
surfaced in `Except`. -/
def normalize_pos (raw : String) : Except String String :=
  if raw = "" then Except.ok ""
  else if decide (':' ∈ raw.data) then
    match collectParts (strSplitChar '/' raw) with
    | Except.error msg => Except.error msg
    | Except.ok pos_freq =>
      Except.ok (String.intercalate "," (dedupSeen [] ((sortByFreqDesc pos_freq).map Prod.fst)))
  else
    let code := pyLower (pyStrip raw)
    let std := (POS_STANDARD code).getD ""
    Except.ok (if std ≠ "" ∧ std ≠ "unknown" then std else "")

/-- Count-per-tag accumulation of `_get_pos_from_wordnet`
(`pos_count[std] = pos_count.get(std, 0) + 1`, dict insertion order). -/
def bumpCount (k : String) : List (String × Nat) → List (String × Nat)
  | [] => [(k, 1)]
  | p :: ps => if p.1 = k then (p.1, p.2 + 1) :: ps else p :: bumpCount k ps

/-- One iteration of the synset-counting loop: map the code, skip unmapped
and `unknown` codes, bump the count of the rest. -/
def countStep (acc : List (String × Nat)) (code : String) : List (String × Nat) :=
  let std := (POS_STANDARD code).getD ""
  if std ≠ "" ∧ std ≠ "unknown" then bumpCount std acc else acc

/-- The tag-count table built from the part-of-speech codes of the
WordNet synsets of a word. -/
def countStd (synPos : List String) : List (String × Nat) :=
  synPos.foldl countStep []

/-- `_get_pos_from_wordnet`, with the WordNet corpus abstracted to the list
of synset part-of-speech codes it returns for the word. -/
def get_pos_from_wordnet (wnAvail : Bool) (synPos : List String) : String :=
  if wnAvail = false then ""
  else if synPos = [] then ""
  else String.intercalate ","
    ((sortStable (fun x y => decide (x.2 < y.2)) (countStd synPos)).map Prod.fst)

/-- The per-entry body of the `enrich_with_pos` loop: normalize a non-empty
`pos`, then fall back to WordNet when the result is empty, recording the
`wordnet` provenance. -/
def enrich_pos_entry (wnAvail : Bool) (synsets : String → List String)
    (w : String) (e : WordEntry) : Except String WordEntry :=
  match (if e.pos ≠ "" then normalize_pos e.pos else Except.ok e.pos) with
  | Except.error msg => Except.error msg
  | Except.ok newPos =>
    let e1 : WordEntry := { e with pos := newPos }
    if e1.pos = "" ∧ wnAvail then
      let wp := get_pos_from_wordnet wnAvail (synsets w)
      if wp ≠ "" then
        Except.ok
          { e1 with
            pos := wp,
            data_sources :=
              if strContains e1.data_sources "wordnet" then e1.data_sources
              else e1.data_sources ++ ",wordnet" }
      else Except.ok e1
    else Except.ok e1

/-- Run a fallible per-entry transformation over every entry, stopping at the
first raised exception (the Python loop order). -/
def exceptMapEntries (f : String → WordEntry → Except String WordEntry) :
    WordsMap → Except String WordsMap
  | [] => Except.ok []
  | p :: ps =>
    match f p.1 p.2 with
    | Except.error msg => Except.error msg
    | Except.ok e =>
      match exceptMapEntries f ps with
      | Except.error msg => Except.error msg
      | Except.ok rest => Except.ok ((p.1, e) :: rest)

/-- `enrich_with_pos`. -/
def enrich_with_pos (wnAvail : Bool) (synsets : String → List String)
    (l : WordsMap) : Except String WordsMap :=
  exceptMapEntries (enrich_pos_entry wnAvail synsets) l

/-! ## Frequency override (`enrich_with_coca`) -/

/-- The two mutations applied to an entry whose word is in the COCA table:
overwrite `coca_rank` and append the `coca` provenance if absent. -/
def touchCoca (r : Int) (e : WordEntry) : WordEntry :=
  { e with coca_rank := r,
           data_sources :=
             if strContains e.data_sources "coca" then e.data_sources
             else e.data_sources ++ ",coca" }

/-- `enrich_with_coca`: iterate the COCA dict and update matching entries. -/
def enrich_with_coca (coca : List (String × Int)) (l : WordsMap) : WordsMap :=
  coca.foldl
    (fun acc pr =>
      if (lookupKey pr.1 acc).isSome then updateAt pr.1 (touchCoca pr.2) acc else acc)
    l

/-! ## CEFR injection (`enrich_with_cefr`) -/

/-- Mutations applied when a non-empty CEFR band is computed. -/
def touchCefr (s : String) (e : WordEntry) : WordEntry :=
  { e with cefr_level := s,
           data_sources :=
             if strContains e.data_sources "cefr" then e.data_sources
             else e.data_sources ++ ",cefr" }

/-- The body of the `enrich_with_cefr` loop for one entry: look the word up
in the CEFR dict and apply the mutation when a non-empty band results. -/
def cefrEntryStep (cefr : List (String × ℚ)) (k : String) (x : WordEntry) : WordEntry :=
  match lookupKey k cefr with
  | none => x
  | some level =>
    let s := cefr_from_float level
    if s = "" then x else touchCefr s x

/-- `enrich_with_cefr`: skipped entirely when no CEFR data was loaded,
otherwise visits every entry once. -/
def enrich_with_cefr (cefr : List (String × ℚ)) (l : WordsMap) : WordsMap :=
  if cefr = [] then l
  else l.map (fun p => (p.1, cefrEntryStep cefr p.1 p.2))

/-! ## Curated-wordlist tagging (`enrich_with_gaokao`) -/

/-- The body of the `enrich_with_gaokao` loop for one entry: set `is_gk` when
the word is in the Gaokao set.  Note it touches no other field, in
particular not `data_sources`. -/
def gkEntryStep (gk : List String) (k : String) (x : WordEntry) : WordEntry :=
  if decide (k ∈ gk) then { x with is_gk := true } else x

/-- `enrich_with_gaokao`: skipped when no Gaokao words were loaded, otherwise
sets `is_gk` on every entry whose word is in the set. -/
def enrich_with_gaokao (gk : List String) (l : WordsMap) : WordsMap :=
  if gk = [] then l
  else l.map (fun p => (p.1, gkEntryStep gk p.1 p.2))

/-! ## Inclusion filter (`_should_include`) and `filter_words` -/

def COCA_THRESHOLD : Int := 20000
def BNC_THRESHOLD : Int := 15000

/-- `_should_include`, with Python int truthiness rendered explicitly. -/
def should_include (e : WordEntry) : Bool :=
  if e.is_oxford_3000 then true
  else if e.is_cet4 || e.is_cet6 || e.is_ky || e.is_toefl || e.is_ielts || e.is_gre ||
          e.is_gk || e.is_zk then true
  else if decide (e.coca_rank ≠ 0) && decide (0 < e.coca_rank) &&
          decide (e.coca_rank ≤ COCA_THRESHOLD) then true
  else if decide (e.bnc_rank ≠ 0) && decide (0 < e.bnc_rank) &&
          decide (e.bnc_rank ≤ BNC_THRESHOLD) then true
  else if decide (e.collins_star ≠ 0) && decide (3 ≤ e.collins_star) then true
  else false

/-- `filter_words`: keep the entries passing `_should_include`. -/
def filter_words (l : WordsMap) : WordsMap :=
  l.filter (fun p => should_include p.2)

/-! ## Dictionary adapter (`load_stardict`) -/

/-- A raw row of the `stardict` table; SQLite NULLs are `none`. -/
structure StardictRow where
  word : Option String := none
  phonetic : Option String := none
  definition : Option String := none
  translation : Option String := none
  pos : Option String := none
  collins : Option Int := none
  oxford : Option Int := none
  tag : Option String := none
  bnc : Option Int := none
  frq : Option Int := none
  exchange : Option String := none
deriving DecidableEq, Repr

/-- Python `x or ""` on a nullable string column. -/
def orEmpty : Option String → String
  | none => ""
  | some s => s

/-- Python `x or 0` on a nullable integer column. -/
def orZero : Option Int → Int
  | none => 0
  | some n => n

/-- Python `bool(x)` on a nullable integer column. -/
def truthyInt : Option Int → Bool
  | none => false
  | some n => decide (n ≠ 0)

/-- The processed form key: `row[0].lower().strip() if row[0] else ""`. -/
def rowForm (row : StardictRow) : String :=
  match row.word with
  | none => ""
  | some s => if s = "" then "" else pyStrip (pyLower s)

/-- The `WordEntry` built from one stardict row (tag string split on
whitespace into the exam-tag set; `frq` copied into `coca_rank` when
truthy). -/
def mkStardictEntry (w : String) (row : StardictRow) : WordEntry :=
  let tags := splitWhitespaceWords (orEmpty row.tag)
  { word := w,
    phonetic := orEmpty row.phonetic,
    definition_en := orEmpty row.definition,
    definition_cn := orEmpty row.translation,
    pos := orEmpty row.pos,
    collins_star := orZero row.collins,
    is_oxford_3000 := truthyInt row.oxford,
    bnc_rank := orZero row.bnc,
    exchange := orEmpty row.exchange,
    is_zk := decide ("zk" ∈ tags),
    is_gk := decide ("gk" ∈ tags),
    is_cet4 := decide ("cet4" ∈ tags),
    is_cet6 := decide ("cet6" ∈ tags),
    is_ky := decide ("ky" ∈ tags),
    is_toefl := decide ("toefl" ∈ tags),
    is_ielts := decide ("ielts" ∈ tags),
    is_gre := decide ("gre" ∈ tags),
    data_sources := "ecdict",
    coca_rank := (match row.frq with | none => 0 | some n => if n ≠ 0 then n else 0) }

/-- One iteration of the `load_stardict` row loop: skip empty or invalid
forms, otherwise store the fresh entry under the form. -/
def load_step (acc : WordsMap) (row : StardictRow) : WordsMap :=
  let w := rowForm row
  if w = "" then acc
  else if is_valid_word w = false then acc
  else dictSet w (mkStardictEntry w row) acc

/-- `load_stardict` over the queried rows. -/
def load_stardict (rows : List StardictRow) : WordsMap :=
  rows.foldl load_step []

/-! ## Store writer (`build_database` insertion loop) -/

/-- The insertion loop of `build_database`: one INSERT per filtered entry,
where the schema-level UNIQUE constraint on `word` raises on a duplicate. -/
def insertLoop (db : List WordEntry) : List WordEntry → Except String (List WordEntry)
  | [] => Except.ok db
  | e :: rest =>
    if db.any (fun x => decide (x.word = e.word)) then
      Except.error "UNIQUE constraint failed: words.word"
    else insertLoop (db ++ [e]) rest

/-- Insert all filtered entries into a fresh table. -/
def insertAllEntries (rows : List WordEntry) : Except String (List WordEntry) :=
  insertLoop [] rows

/-! ## Derived views used by the proofs -/

/-- The COCA ranks recorded for key `k`, in table order. -/
def ranksFor (coca : List (String × Int)) (k : String) : List Int :=
  (coca.filter (fun q => decide (q.1 = k))).map Prod.snd

/-- Apply a list of COCA overrides to one entry, in order. -/
def applyRanks (rs : List Int) (e : WordEntry) : WordEntry :=
  rs.foldl (fun a r => touchCoca r a) e

/-- The character stream that `String.intercalate ","` appends after its
first element: `"," ++ t1 ++ "," ++ t2 ++ ...`. -/
def interData : List String → List Char
  | [] => []
  | t :: ts => ',' :: (t.data ++ interData ts)

/-- The tag sequence actually carried by the comma-joined `pos` field: an
empty field carries no tags, otherwise the field split on `','`. -/
def posTags (s : String) : List String :=
  if s = "" then [] else strSplitChar ',' s


/-! ## Generic lemmas about the dict model -/

theorem lookupKey_map {β γ : Type} (f : String → β → γ) (l : List (String × β)) (w : String) :
    lookupKey w (l.map (fun p => (p.1, f p.1 p.2))) = (lookupKey w l).map (f w) := by
  induction l with
  | nil => rfl
  | cons p ps ih =>
    simp only [List.map_cons, lookupKey]
    split
    · next h => rw [← h]; rfl
    · exact ih

theorem lookupKey_eq_none_iff {β : Type} (l : List (String × β)) (w : String) :
    lookupKey w l = none ↔ ∀ p ∈ l, p.1 ≠ w := by
  induction l with
  | nil => simp [lookupKey]
  | cons p ps ih =>
    simp only [lookupKey, List.mem_cons]
    split
    · next h => simp_all
    · next h => simp_all

theorem keysOf_map {β γ : Type} (f : String → β → γ) (l : List (String × β)) :
    keysOf (l.map (fun p => (p.1, f p.1 p.2))) = keysOf l := by
  simp only [keysOf, List.map_map]
  rfl

/-! ## C1: the inclusion filter -/

/-- C1: the inclusion filter selects an entry iff the five-way disjunction
of the specification holds (core wordlist, some exam tag, primary rank in
(0, 20000], secondary rank in (0, 15000], or at least three quality stars);
in particular an entry with three stars and nothing else is included, and a
one-star entry with primary rank 50000 and nothing else is excluded. -/
theorem c1_inclusion_filter :
    (∀ e : WordEntry, should_include e = true ↔
      (e.is_oxford_3000 = true ∨
       (e.is_cet4 = true ∨ e.is_cet6 = true ∨ e.is_ky = true ∨ e.is_toefl = true ∨
        e.is_ielts = true ∨ e.is_gre = true ∨ e.is_gk = true ∨ e.is_zk = true) ∨
       (0 < e.coca_rank ∧ e.coca_rank ≤ 20000) ∨
       (0 < e.bnc_rank ∧ e.bnc_rank ≤ 15000) ∨
       3 ≤ e.collins_star)) ∧
    should_include { word := "star3", collins_star := 3 } = true ∧
    should_include { word := "rare", collins_star := 1, coca_rank := 50000 } = false := by
  refine ⟨fun e => ?_, by decide, by decide⟩
  simp only [should_include, COCA_THRESHOLD, BNC_THRESHOLD]
  split_ifs with h1 h2 h3 h4 h5
  · exact iff_of_true rfl (Or.inl h1)
  · exact iff_of_true rfl (Or.inr (Or.inl (by simp only [Bool.or_eq_true] at h2; tauto)))
  · simp only [Bool.and_eq_true, decide_eq_true_eq] at h3
    exact iff_of_true rfl (Or.inr (Or.inr (Or.inl ⟨h3.1.2, h3.2⟩)))
  · simp only [Bool.and_eq_true, decide_eq_true_eq] at h4
    exact iff_of_true rfl (Or.inr (Or.inr (Or.inr (Or.inl ⟨h4.1.2, h4.2⟩))))
  · simp only [Bool.and_eq_true, decide_eq_true_eq] at h5
    exact iff_of_true rfl (Or.inr (Or.inr (Or.inr (Or.inr h5.2))))
  · refine iff_of_false (by simp) ?_
    rintro (h | h | h | h | h)
    · exact h1 h
    · exact h2 (by simp only [Bool.or_eq_true]; tauto)
    · exact h3 (by simp only [Bool.and_eq_true, decide_eq_true_eq]; exact ⟨⟨by omega, h.1⟩, h.2⟩)
    · exact h4 (by simp only [Bool.and_eq_true, decide_eq_true_eq]; exact ⟨⟨by omega, h.1⟩, h.2⟩)
    · exact h5 (by simp only [Bool.and_eq_true, decide_eq_true_eq]; exact ⟨by omega, h⟩)

/-! ## The frequency-override step as a per-key map -/

theorem applyRanks_cons (r : Int) (rs : List Int) (e : WordEntry) :
    applyRanks (r :: rs) e = applyRanks rs (touchCoca r e) := rfl


theorem enrich_with_coca_eq_map (coca : List (String × Int)) (l : WordsMap) :
    enrich_with_coca coca l = l.map (fun p => (p.1, applyRanks (ranksFor coca p.1) p.2)) := by
  induction coca generalizing l with
  | nil =>
    have hid : (fun (p : String × WordEntry) => (p.1, applyRanks (ranksFor [] p.1) p.2)) =
        fun p => p := by
      funext p
      rfl
    simp [enrich_with_coca, hid]
  | cons q rest ih =>
    simp only [enrich_with_coca, List.foldl_cons] at *
    by_cases hq : (lookupKey q.1 l).isSome
    · rw [if_pos hq, ih]
      simp only [updateAt, List.map_map]
      apply List.map_congr_left
      intro p _
      simp only [Function.comp_apply]
      by_cases hpq : p.1 = q.1
      · have hr : ranksFor (q :: rest) p.1 = q.2 :: ranksFor rest p.1 := by
          simp [ranksFor, List.filter_cons, hpq.symm]
        rw [if_pos hpq, hr, applyRanks_cons]
      · have hr : ranksFor (q :: rest) p.1 = ranksFor rest p.1 := by
          have hne : ¬(q.1 = p.1) := fun h => hpq h.symm
          simp [ranksFor, List.filter_cons, hne]
        rw [if_neg hpq, hr]
    · rw [if_neg hq, ih]
      apply List.map_congr_left
      intro p hp
      have hnone : lookupKey q.1 l = none := Option.not_isSome_iff_eq_none.mp hq
      have hne : ¬(q.1 = p.1) := fun h =>
        ((lookupKey_eq_none_iff l q.1).mp hnone p hp) h.symm
      have hr : ranksFor (q :: rest) p.1 = ranksFor rest p.1 := by
        simp [ranksFor, List.filter_cons, hne]
      rw [hr]

theorem ranksFor_eq_nil_of_not_mem (coca : List (String × Int)) (w : String)
    (h : w ∉ keysOf coca) : ranksFor coca w = [] := by
  induction coca with
  | nil => rfl
  | cons q rest ih =>
    simp only [keysOf, List.map_cons, List.mem_cons, not_or] at h
    have hcond : ¬(decide (q.1 = w) = true) := by
      simp only [decide_eq_true_eq]
      exact fun hh => h.1 hh.symm
    show (List.filter (fun p => decide (p.1 = w)) (q :: rest)).map Prod.snd = []
    rw [List.filter_cons, if_neg hcond]
    exact ih h.2

theorem ranksFor_nodup_single (coca : List (String × Int)) (w : String) (r : Int)
    (hnd : (keysOf coca).Nodup) (hmem : (w, r) ∈ coca) : ranksFor coca w = [r] := by
  induction coca with
  | nil => cases hmem
  | cons q rest ih =>
    have hnd' : (keysOf rest).Nodup := (List.nodup_cons.mp hnd).2
    have hq : q.1 ∉ keysOf rest := (List.nodup_cons.mp hnd).1
    rcases List.mem_cons.mp hmem with heq | hmem'
    · subst heq
      show (List.filter (fun p => decide (p.1 = w)) ((w, r) :: rest)).map Prod.snd = [r]
      rw [List.filter_cons, if_pos (by simp)]
      rw [List.map_cons]
      have : ranksFor rest w = [] := ranksFor_eq_nil_of_not_mem rest w hq
      rw [show (List.filter (fun p => decide (p.1 = w)) rest).map Prod.snd = ranksFor rest w from rfl, this]
    · have hne : ¬(q.1 = w) := by
        intro hh
        exact hq (hh ▸ (List.mem_map.mpr ⟨(w, r), hmem', rfl⟩))
      show (List.filter (fun p => decide (p.1 = w)) (q :: rest)).map Prod.snd = [r]
      rw [List.filter_cons, if_neg (by simpa using hne)]
      exact ih hnd' hmem'

/-! ## C2: the frequency override -/

/-- C2: for a form in both the COCA table and the entry table, after
`enrich_with_coca` the entry's `coca_rank` equals the COCA rank,
unconditionally replacing whatever the dictionary supplied. -/
theorem c2_frequency_override (coca : List (String × Int)) (l : WordsMap)
    (w : String) (r : Int) (e : WordEntry)
    (hnd : (keysOf coca).Nodup) (hmem : (w, r) ∈ coca) (he : lookupKey w l = some e) :
    ∃ e', lookupKey w (enrich_with_coca coca l) = some e' ∧ e'.coca_rank = r := by
  rw [enrich_with_coca_eq_map,
    lookupKey_map (fun k x => applyRanks (ranksFor coca k) x) l w, he]
  refine ⟨applyRanks (ranksFor coca w) e, rfl, ?_⟩
  rw [ranksFor_nodup_single coca w r hnd hmem]
  rfl

/-- C2 witness: the table entry `("take", 5)` overrides a dictionary
frequency of 9000: the merged `coca_rank` is 5. -/
theorem c2_frequency_override_witness :
    (keysOf [("take", (5 : Int))]).Nodup ∧
    (∃ e', lookupKey "take"
        (enrich_with_coca [("take", 5)] [("take", { word := "take", coca_rank := 9000 })]) =
          some e' ∧ e'.coca_rank = 5) ∧
    (lookupKey "take"
        (enrich_with_coca [("take", 5)] [("take", { word := "take", coca_rank := 9000 })])).map
      WordEntry.coca_rank = some 5 :=
  ⟨by decide,
   c2_frequency_override [("take", 5)] [("take", { word := "take", coca_rank := 9000 })]
     "take" 5 { word := "take", coca_rank := 9000 } (by decide) (by decide) rfl,
   by decide⟩

/-! ## C8: idempotence of the frequency override -/

theorem chContainsSeq_append_left (needle pre suf : List Char)
    (h : chContainsSeq needle suf = true) : chContainsSeq needle (pre ++ suf) = true := by
  induction pre with
  | nil => exact h
  | cons c cs ih =>
    show (chStartsWith needle (c :: (cs ++ suf)) || chContainsSeq needle (cs ++ suf)) = true
    rw [ih]
    exact Bool.or_true _

theorem String_data_append (s t : String) : (s ++ t).data = s.data ++ t.data := rfl

theorem strContains_append_coca (s : String) : strContains (s ++ ",coca") "coca" = true := by
  show chContainsSeq "coca".data (s ++ ",coca").data = true
  rw [String_data_append]
  exact chContainsSeq_append_left _ _ _ (by decide)

theorem strContains_touchCoca (r : Int) (e : WordEntry) :
    strContains (touchCoca r e).data_sources "coca" = true := by
  show strContains (if strContains e.data_sources "coca" then e.data_sources
    else e.data_sources ++ ",coca") "coca" = true
  split
  · next h => exact h
  · exact strContains_append_coca _

theorem touchCoca_touchCoca (r : Int) (e : WordEntry) :
    touchCoca r (touchCoca r e) = touchCoca r e := by
  have h := strContains_touchCoca r e
  show ({ touchCoca r e with
          coca_rank := r,
          data_sources := if strContains (touchCoca r e).data_sources "coca" then
            (touchCoca r e).data_sources else (touchCoca r e).data_sources ++ ",coca" }
        : WordEntry) = touchCoca r e
  rw [if_pos h]
  rfl

/-- C8: the frequency-override step is idempotent on any entry table, for
any frequency table (whose keys, coming from a dict, are unique): running it
twice is the same entry-table state as running it once. -/
theorem c8_coca_idempotent (coca : List (String × Int)) (l : WordsMap)
    (hnd : (keysOf coca).Nodup) :
    enrich_with_coca coca (enrich_with_coca coca l) = enrich_with_coca coca l := by
  rw [enrich_with_coca_eq_map coca l, enrich_with_coca_eq_map, List.map_map]
  apply List.map_congr_left
  intro p _
  simp only [Function.comp_apply]
  rcases hcase : ranksFor coca p.1 with _ | ⟨r, rs⟩
  · rfl
  · have hr1 : rs = [] := by
      have hlen : (ranksFor coca p.1).length ≤ 1 := by
        by_cases hmem : p.1 ∈ keysOf coca
        · obtain ⟨q, hq, hq1⟩ := List.mem_map.mp hmem
          have := ranksFor_nodup_single coca p.1 q.2 hnd (by
            have : q = (p.1, q.2) := by
              rcases q with ⟨a, b⟩
              simp only at hq1
              rw [hq1]
            exact this ▸ hq)
          rw [this]
          exact Nat.le_refl 1
        · rw [ranksFor_eq_nil_of_not_mem coca p.1 hmem]
          exact Nat.zero_le 1
      rw [hcase] at hlen
      simp only [List.length_cons] at hlen
      exact List.length_eq_zero.mp (by omega)
    subst hr1
    show (p.1, applyRanks [r] (applyRanks [r] p.2)) = (p.1, applyRanks [r] p.2)
    have : applyRanks [r] (applyRanks [r] p.2) = applyRanks [r] p.2 := by
      show touchCoca r (touchCoca r p.2) = touchCoca r p.2
      exact touchCoca_touchCoca r p.2
    rw [this]

/-- C8 witness: a concrete table and entry map where running the override
twice equals running it once. -/
theorem c8_coca_idempotent_witness :
    (keysOf [("take", (5 : Int))]).Nodup ∧
    enrich_with_coca [("take", 5)]
        (enrich_with_coca [("take", 5)] [("take", { word := "take", coca_rank := 9000 })]) =
      enrich_with_coca [("take", 5)] [("take", { word := "take", coca_rank := 9000 })] :=
  ⟨by decide,
   c8_coca_idempotent [("take", 5)] [("take", { word := "take", coca_rank := 9000 })] (by decide)⟩

/-! ## C3: CEFR injection -/

theorem CEFR_LEVEL_MAP_eq_none_of_out (k : Int) (h : k < 1 ∨ 6 < k) :
    CEFR_LEVEL_MAP k = none := by
  unfold CEFR_LEVEL_MAP
  split_ifs with h1 h2 h3 h4 h5 h6 <;> first | rfl | (exfalso; rcases h with h | h <;> omega)

theorem CEFR_LEVEL_MAP_eq_some_of_in (k : Int) (h1 : 1 ≤ k) (h6 : k ≤ 6) :
    ∃ s, CEFR_LEVEL_MAP k = some s ∧ s ≠ "" := by
  interval_cases k <;> exact ⟨_, rfl, by decide⟩

/-- `pyRound` really is a nearest integer: its distance to the argument is
at most one half. -/
theorem pyRound_near (q : ℚ) : |(pyRound q : ℚ) - q| ≤ 1/2 := by
  have hfl : q.num / (q.den : Int) = ⌊q⌋ := Rat.floor_def.symm
  have hden0 : (0 : ℚ) < (q.den : ℚ) := by
    exact_mod_cast q.den_pos
  have hd : ((q.den : ℚ)) ≠ 0 := ne_of_gt hden0
  have hnum : (q.num : ℚ) = q * (q.den : ℚ) := (div_eq_iff hd).mp (Rat.num_div_den q)
  have hfr0 : 0 ≤ Int.fract q := Int.fract_nonneg q
  have hfr1 : Int.fract q < 1 := Int.fract_lt_one q
  have hr2 : ((2 * (q.num - q.num / (q.den : Int) * (q.den : Int)) : Int) : ℚ) =
      2 * (q.den : ℚ) * Int.fract q := by
    rw [hfl]
    push_cast
    rw [Int.fract]
    rw [hnum]
    ring
  simp only [pyRound]
  split_ifs with hc1 hc2 hc3
  · have : (2 : ℚ) * (q.den : ℚ) * Int.fract q < (q.den : ℚ) := by
      rw [← hr2]
      exact_mod_cast hc1
    have hlt : Int.fract q < 1/2 := by nlinarith
    rw [hfl, abs_sub_comm, show q - (⌊q⌋ : ℚ) = Int.fract q from rfl,
      abs_of_nonneg hfr0]
    linarith
  · have : (q.den : ℚ) < 2 * (q.den : ℚ) * Int.fract q := by
      rw [← hr2]
      exact_mod_cast hc2
    have hgt : 1/2 < Int.fract q := by nlinarith
    rw [hfl]
    have : ((⌊q⌋ + 1 : Int) : ℚ) - q = 1 - Int.fract q := by
      push_cast
      rw [Int.fract]
      ring
    rw [this, abs_of_nonneg (by linarith)]
    linarith
  · have heq : (2 : ℚ) * (q.den : ℚ) * Int.fract q = (q.den : ℚ) := by
      rw [← hr2]
      exact_mod_cast le_antisymm (not_lt.mp hc2) (not_lt.mp hc1)
    have hhalf : Int.fract q = 1/2 := by
      have h2 : (2 * Int.fract q - 1) * (q.den : ℚ) = 0 := by linear_combination heq
      rcases mul_eq_zero.mp h2 with h3 | h3
      · linarith
      · exact absurd h3 hd
    rw [hfl, abs_sub_comm, show q - (⌊q⌋ : ℚ) = Int.fract q from rfl,
      abs_of_nonneg hfr0, hhalf]
  · have heq : (2 : ℚ) * (q.den : ℚ) * Int.fract q = (q.den : ℚ) := by
      rw [← hr2]
      exact_mod_cast le_antisymm (not_lt.mp hc2) (not_lt.mp hc1)
    have hhalf : Int.fract q = 1/2 := by
      have h2 : (2 * Int.fract q - 1) * (q.den : ℚ) = 0 := by linear_combination heq
      rcases mul_eq_zero.mp h2 with h3 | h3
      · linarith
      · exact absurd h3 hd
    rw [hfl]
    have : ((⌊q⌋ + 1 : Int) : ℚ) - q = 1 - Int.fract q := by
      push_cast
      rw [Int.fract]
      ring
    rw [this, abs_of_nonneg (by linarith), hhalf]
    norm_num

/-- C3: for a form with averaged level `L` in the CEFR data, the injection
step leaves `cefr_level` unchanged when `L ≤ 0` or when the rounded level
falls outside 1..6, and otherwise sets it to the band mapped from the
rounded level, which is a nearest integer to `L`. -/
theorem c3_cefr_injection (cefr : List (String × ℚ)) (l : WordsMap)
    (w : String) (e : WordEntry) (L : ℚ)
    (hc : lookupKey w cefr = some L) (he : lookupKey w l = some e) :
    ∃ e', lookupKey w (enrich_with_cefr cefr l) = some e' ∧
      (L ≤ 0 → e'.cefr_level = e.cefr_level) ∧
      ((pyRound L < 1 ∨ 6 < pyRound L) → e'.cefr_level = e.cefr_level) ∧
      (0 < L → 1 ≤ pyRound L → pyRound L ≤ 6 →
        CEFR_LEVEL_MAP (pyRound L) = some e'.cefr_level) ∧
      |(pyRound L : ℚ) - L| ≤ 1/2 := by
  have hne : cefr ≠ [] := by
    rintro rfl
    cases hc
  refine ⟨cefrEntryStep cefr w e, ?_, ?_, ?_, ?_, pyRound_near L⟩
  · show lookupKey w (enrich_with_cefr cefr l) = some (cefrEntryStep cefr w e)
    unfold enrich_with_cefr
    rw [if_neg hne, lookupKey_map (cefrEntryStep cefr) l w, he]
    rfl
  · intro hL0
    have hs : cefr_from_float L = "" := by
      unfold cefr_from_float
      rw [if_pos hL0]
    simp [cefrEntryStep, hc, hs]
  · intro hout
    have hs : cefr_from_float L = "" := by
      unfold cefr_from_float
      split_ifs with h0
      · rfl
      · rw [CEFR_LEVEL_MAP_eq_none_of_out _ hout]
        rfl
    simp [cefrEntryStep, hc, hs]
  · intro hpos h1 h6
    obtain ⟨s, hsome, hsne⟩ := CEFR_LEVEL_MAP_eq_some_of_in (pyRound L) h1 h6
    have hs : cefr_from_float L = s := by
      unfold cefr_from_float
      rw [if_neg (not_le.mpr hpos), hsome]
      rfl
    simp [cefrEntryStep, hc, hs, hsne, touchCefr, hsome]

/-- C3 witness: an averaged level of 22/5 = 4.4 yields the band B2; levels
0 and -3 yield no assignment. -/
theorem c3_cefr_injection_witness :
    (∃ e', lookupKey "go"
        (enrich_with_cefr [("go", mkRat 22 5)] [("go", { word := "go" })]) = some e' ∧
      ((mkRat 22 5 : ℚ) ≤ 0 → e'.cefr_level = ({ word := "go" } : WordEntry).cefr_level) ∧
      ((pyRound (mkRat 22 5) < 1 ∨ 6 < pyRound (mkRat 22 5)) →
        e'.cefr_level = ({ word := "go" } : WordEntry).cefr_level) ∧
      (0 < (mkRat 22 5 : ℚ) → 1 ≤ pyRound (mkRat 22 5) → pyRound (mkRat 22 5) ≤ 6 →
        CEFR_LEVEL_MAP (pyRound (mkRat 22 5)) = some e'.cefr_level) ∧
      |(pyRound (mkRat 22 5) : ℚ) - mkRat 22 5| ≤ 1/2) ∧
    (lookupKey "go"
        (enrich_with_cefr [("go", mkRat 22 5)] [("go", { word := "go" })])).map
      WordEntry.cefr_level = some "B2" ∧
    cefr_from_float 0 = "" ∧ cefr_from_float (mkRat (-3) 1) = "" :=
  ⟨c3_cefr_injection [("go", mkRat 22 5)] [("go", { word := "go" })] "go"
      { word := "go" } (mkRat 22 5) rfl rfl,
   by decide, by decide, by decide⟩

/-! ## C6: curated-wordlist tagging -/

/-- C6 counterexample: `enrich_with_gaokao` sets the exam tag but leaves
`data_sources` exactly as it was (here `"ecdict"`): no curated-wordlist
source identifier is ever appended to the provenance. -/
theorem c6_counterexample :
    (lookupKey "take" (enrich_with_gaokao ["take"]
        [("take", { word := "take", data_sources := "ecdict" })])).map
      WordEntry.is_gk = some true ∧
    (lookupKey "take" (enrich_with_gaokao ["take"]
        [("take", { word := "take", data_sources := "ecdict" })])).map
      WordEntry.data_sources = some "ecdict" := by
  exact ⟨by decide, by decide⟩

/-- C6 amended: for every entry whose word is in the curated list, the
tagging step replaces the entry by the same entry with `is_gk := true`:
it never clears any other exam tag, and it leaves `data_sources`
(provenance) unchanged — it does not append any source identifier. -/
theorem c6_gaokao_tagging (gk : List String) (l : WordsMap) (w : String) (e : WordEntry)
    (hw : w ∈ gk) (he : lookupKey w l = some e) :
    lookupKey w (enrich_with_gaokao gk l) = some { e with is_gk := true } := by
  have hne : gk ≠ [] := by
    rintro rfl
    cases hw
  unfold enrich_with_gaokao
  rw [if_neg hne, lookupKey_map (gkEntryStep gk) l w, he]
  simp [gkEntryStep, hw]

/-- C6 witness: the amended statement at a concrete entry. -/
theorem c6_gaokao_tagging_witness :
    lookupKey "take" (enrich_with_gaokao ["take"]
        [("take", { word := "take", data_sources := "ecdict", is_cet4 := true })]) =
      some { word := "take", data_sources := "ecdict", is_cet4 := true, is_gk := true } :=
  c6_gaokao_tagging ["take"] [("take", { word := "take", data_sources := "ecdict", is_cet4 := true })]
    "take" { word := "take", data_sources := "ecdict", is_cet4 := true }
    (by decide) rfl

/-! ## C5: which steps create entries -/

theorem lookupKey_dictSet_isSome (k : String) (v : WordEntry) (l : WordsMap) (w : String) :
    (lookupKey w (dictSet k v l)).isSome = true ↔
      w = k ∨ (lookupKey w l).isSome = true := by
  induction l with
  | nil =>
    show (if k = w then some v else none).isSome = true ↔
      w = k ∨ (none : Option WordEntry).isSome = true
    by_cases h : k = w
    · simp [h]
    · simp [h, (Ne.symm h : ¬(w = k))]
  | cons p ps ih =>
    show (lookupKey w (if p.1 = k then (p.1, v) :: ps else p :: dictSet k v ps)).isSome = true ↔ _
    by_cases hpk : p.1 = k
    · rw [if_pos hpk]
      show (if p.1 = w then some v else lookupKey w ps).isSome = true ↔
        w = k ∨ (if p.1 = w then some p.2 else lookupKey w ps).isSome = true
      by_cases hpw : p.1 = w
      · have hwk : w = k := by rw [← hpw, hpk]
        simp [hpw, hwk]
      · rw [if_neg hpw, if_neg hpw]
        have hwk : ¬(w = k) := fun hh => hpw (by rw [hpk, hh])
        simp [hwk]
    · rw [if_neg hpk]
      show (if p.1 = w then some p.2 else lookupKey w (dictSet k v ps)).isSome = true ↔
        w = k ∨ (if p.1 = w then some p.2 else lookupKey w ps).isSome = true
      by_cases hpw : p.1 = w
      · simp [hpw]
      · rw [if_neg hpw, if_neg hpw]
        rw [ih]

theorem load_step_isSome (acc : WordsMap) (row : StardictRow) (w : String) :
    (lookupKey w (load_step acc row)).isSome = true ↔
      (rowForm row = w ∧ w ≠ "" ∧ is_valid_word w = true) ∨
        (lookupKey w acc).isSome = true := by
  unfold load_step
  by_cases h1 : rowForm row = ""
  · rw [if_pos h1]
    constructor
    · exact Or.inr
    · rintro (⟨hw, hne, _⟩ | h)
      · exact absurd (hw.symm.trans h1) hne
      · exact h
  · rw [if_neg h1]
    by_cases h2 : is_valid_word (rowForm row) = false
    · rw [if_pos h2]
      constructor
      · exact Or.inr
      · rintro (⟨hw, _, hv⟩ | h)
        · rw [hw] at h2
          rw [h2] at hv
          cases hv
        · exact h
    · rw [if_neg h2]
      have h2' : is_valid_word (rowForm row) = true := by
        revert h2
        cases is_valid_word (rowForm row) <;> simp
      rw [lookupKey_dictSet_isSome]
      constructor
      · rintro (hw | h)
        · refine Or.inl ⟨hw.symm, fun hh => h1 ?_, ?_⟩
          · rw [← hw]
            exact hh
          · rw [hw]
            exact h2'
        · exact Or.inr h
      · rintro (⟨hw, _, _⟩ | h)
        · exact Or.inl hw.symm
        · exact Or.inr h

theorem load_foldl_isSome (rows : List StardictRow) (acc : WordsMap) (w : String) :
    (lookupKey w (rows.foldl load_step acc)).isSome = true ↔
      (lookupKey w acc).isSome = true ∨
        ∃ r ∈ rows, rowForm r = w ∧ w ≠ "" ∧ is_valid_word w = true := by
  induction rows generalizing acc with
  | nil => simp
  | cons row rest ih =>
    rw [List.foldl_cons, ih (load_step acc row), load_step_isSome]
    constructor
    · rintro ((hc | h) | ⟨r, hr, hcond⟩)
      · exact Or.inr ⟨row, List.mem_cons_self row rest, hc⟩
      · exact Or.inl h
      · exact Or.inr ⟨r, List.mem_cons_of_mem row hr, hcond⟩
    · rintro (h | ⟨r, hr, hcond⟩)
      · exact Or.inl (Or.inr h)
      · rcases List.mem_cons.mp hr with rfl | hmem
        · exact Or.inl (Or.inl hcond)
        · exact Or.inr ⟨r, hmem, hcond⟩

/-- C5 counterexample: with an empty dictionary source and a frequency table
containing `("take", 5)`, the form `"take"` — yielded by the frequency-table
adapter — has no entry in the table after the enrichment steps run, i.e. at
the time the inclusion filter runs; the enrichment steps never create
entries. -/
theorem c5_counterexample :
    enrich_with_pos false (fun _ => []) (load_stardict []) = Except.ok [] ∧
    lookupKey "take"
      (enrich_with_gaokao [] (enrich_with_cefr [] (enrich_with_coca [("take", 5)] []))) =
        none :=
  ⟨rfl, rfl⟩

/-- C5 amended: only the dictionary adapter (`load_stardict`) creates
entries: after it runs, a form has an entry iff some dictionary row yields
exactly that (non-empty, valid) processed form; the three source-driven
enrichment steps preserve the key set exactly, so a form yielded only by
the frequency-table, level-database, or curated-wordlist adapter has no
entry when the inclusion filter runs. -/
theorem c5_entry_creation :
    (∀ (rows : List StardictRow) (w : String),
      (lookupKey w (load_stardict rows)).isSome = true ↔
        ∃ r ∈ rows, rowForm r = w ∧ w ≠ "" ∧ is_valid_word w = true) ∧
    (∀ (coca : List (String × Int)) (l : WordsMap),
      keysOf (enrich_with_coca coca l) = keysOf l) ∧
    (∀ (cefr : List (String × ℚ)) (l : WordsMap),
      keysOf (enrich_with_cefr cefr l) = keysOf l) ∧
    (∀ (gk : List String) (l : WordsMap),
      keysOf (enrich_with_gaokao gk l) = keysOf l) := by
  refine ⟨fun rows w => ?_, fun coca l => ?_, fun cefr l => ?_, fun gk l => ?_⟩
  · rw [show load_stardict rows = rows.foldl load_step [] from rfl, load_foldl_isSome]
    simp [lookupKey]
  · rw [enrich_with_coca_eq_map]
    exact keysOf_map (fun k x => applyRanks (ranksFor coca k) x) l
  · unfold enrich_with_cefr
    split
    · rfl
    · exact keysOf_map (cefrEntryStep cefr) l
  · unfold enrich_with_gaokao
    split
    · rfl
    · exact keysOf_map (gkEntryStep gk) l

/-! ## C9: the duplicate-key error is unreachable -/

theorem insertLoop_ok (rows : List WordEntry) (db : List WordEntry)
    (hnd : (rows.map (fun e => e.word)).Nodup)
    (hdisj : ∀ e ∈ rows, ∀ x ∈ db, x.word ≠ e.word) :
    ∃ db', insertLoop db rows = Except.ok db' := by
  induction rows generalizing db with
  | nil => exact ⟨db, rfl⟩
  | cons e rest ih =>
    rw [List.map_cons] at hnd
    have hany : db.any (fun x => decide (x.word = e.word)) = false := by
      rw [List.any_eq_false]
      intro x hx
      simp only [decide_eq_true_eq]
      exact hdisj e (List.mem_cons_self e rest) x hx
    have hstep : insertLoop db (e :: rest) = insertLoop (db ++ [e]) rest := by
      show (if db.any (fun x => decide (x.word = e.word)) = true then
          Except.error "UNIQUE constraint failed: words.word"
        else insertLoop (db ++ [e]) rest) = _
      rw [hany]
      simp
    rw [hstep]
    refine ih (db ++ [e]) (List.nodup_cons.mp hnd).2 ?_
    intro e' he' x hx
    rcases List.mem_append.mp hx with hmem | hmem
    · exact hdisj e' (List.mem_cons_of_mem e he') x hmem
    · have hxe : x = e := by simpa using hmem
      subst hxe
      intro heq
      exact (List.nodup_cons.mp hnd).1 (by rw [heq]; exact List.mem_map.mpr ⟨e', he', rfl⟩)

/-- C9: the fatal duplicate-key error is unreachable: for any entry table
that is a dict (unique keys) whose entries carry their key as their word —
which is how `load_stardict` builds it and how every enrichment step keeps
it — inserting the filtered entries one by one never trips the UNIQUE
constraint on `word`. -/
theorem c9_unique_unreachable (l : WordsMap)
    (hnd : (keysOf l).Nodup) (hword : ∀ p ∈ l, p.2.word = p.1) :
    ∃ db, insertAllEntries ((filter_words l).map Prod.snd) = Except.ok db := by
  have hsub : List.Sublist (filter_words l) l := List.filter_sublist l
  have hkeys : (keysOf (filter_words l)).Nodup :=
    List.Nodup.sublist (hsub.map Prod.fst) hnd
  have hrows : ((filter_words l).map Prod.snd).map (fun e => e.word) =
      keysOf (filter_words l) := by
    rw [List.map_map]
    apply List.map_congr_left
    intro p hp
    exact hword p (hsub.subset hp)
  apply insertLoop_ok
  · rw [hrows]
    exact hkeys
  · intro e _ x hx
    exact absurd hx (List.not_mem_nil x)

/-- C9 witness: a concrete two-entry table (one selected, one rejected)
inserts without a UNIQUE violation. -/
theorem c9_unique_unreachable_witness :
    (keysOf [("star3", ({ word := "star3", collins_star := 3 } : WordEntry)),
             ("rare", ({ word := "rare" } : WordEntry))]).Nodup ∧
    (∀ p ∈ [("star3", ({ word := "star3", collins_star := 3 } : WordEntry)),
            ("rare", ({ word := "rare" } : WordEntry))], p.2.word = p.1) ∧
    ∃ db, insertAllEntries ((filter_words
        [("star3", { word := "star3", collins_star := 3 }),
         ("rare", { word := "rare" })]).map Prod.snd) = Except.ok db :=
  ⟨by decide, by decide,
   c9_unique_unreachable
     [("star3", { word := "star3", collins_star := 3 }), ("rare", { word := "rare" })]
     (by decide) (by decide)⟩

/-! ## C10: partiality of the part-of-speech normalizer -/

/-- C10 counterexample: a slash-piece with two colons makes the tuple
unpacking in `_normalize_pos` raise a `ValueError`, so the normalizer is
not total. -/
theorem c10_counterexample :
    normalize_pos "n:1:2" = Except.error "ValueError: too many values to unpack" := rfl

theorem collectParts_ok (parts : List String)
    (h : ∀ part ∈ parts, (':' ∈ part.data) → (strSplitChar ':' part).length = 2) :
    ∃ pf, collectParts parts = Except.ok pf := by
  induction parts with
  | nil => exact ⟨[], rfl⟩
  | cons p ps ih =>
    obtain ⟨pf, hpf⟩ := ih (fun part hm => h part (List.mem_cons_of_mem p hm))
    have hp : ∃ o, parsePart p = Except.ok o := by
      unfold parsePart
      split_ifs with hc
      · have hlen := h p (List.mem_cons_self p ps) (by
          simpa [decide_eq_true_eq] using hc)
        obtain ⟨a, b, hab⟩ := List.length_eq_two.mp hlen
        rw [hab]
        dsimp only
        split_ifs <;> exact ⟨_, rfl⟩
      · exact ⟨none, rfl⟩
    obtain ⟨o, ho⟩ := hp
    rcases o with _ | x
    · exact ⟨pf, by rw [collectParts, ho, hpf]⟩
    · exact ⟨x :: pf, by rw [collectParts, ho, hpf]⟩

/-- C10 amended: the normalizer is total except for the tuple unpacking:
on any input whose colon-bearing slash-pieces split into exactly two pieces
(in particular the empty string, unmapped codes, and non-numeric frequency
parts), it returns a possibly-empty tag string and raises nothing. -/
theorem c10_normalize_total (raw : String)
    (h : ∀ part ∈ strSplitChar '/' raw, (':' ∈ part.data) →
      (strSplitChar ':' part).length = 2) :
    ∃ s, normalize_pos raw = Except.ok s := by
  unfold normalize_pos
  split_ifs with h1 h2
  · exact ⟨"", rfl⟩
  · obtain ⟨pf, hpf⟩ := collectParts_ok (strSplitChar '/' raw) h
    rw [hpf]
    exact ⟨_, rfl⟩
  · exact ⟨_, rfl⟩

/-- C10 witness: an input exercising a caught non-numeric frequency, an
unmapped code, a piece with no colon, and an `unknown` code, which all
return normally. -/
theorem c10_normalize_total_witness :
    (∀ part ∈ strSplitChar '/' "a:9x/qq:3/zzz/u:2", (':' ∈ part.data) →
      (strSplitChar ':' part).length = 2) ∧
    ∃ s, normalize_pos "a:9x/qq:3/zzz/u:2" = Except.ok s :=
  ⟨by decide, c10_normalize_total "a:9x/qq:3/zzz/u:2" (by decide)⟩

/-! ## C7: the part-of-speech invariant -/

theorem dedupSeen_nodup_and_fresh (xs : List String) :
    ∀ seen : List String, (dedupSeen seen xs).Nodup ∧ ∀ y ∈ dedupSeen seen xs, y ∉ seen := by
  induction xs with
  | nil => exact fun seen => ⟨List.nodup_nil, fun y hy => absurd hy (List.not_mem_nil y)⟩
  | cons x xs ih =>
    intro seen
    by_cases hx : x ∈ seen
    · rw [show dedupSeen seen (x :: xs) = dedupSeen seen xs from if_pos hx]
      exact ih seen
    · rw [show dedupSeen seen (x :: xs) = x :: dedupSeen (x :: seen) xs from if_neg hx]
      have h1 := ih (x :: seen)
      refine ⟨List.nodup_cons.mpr ⟨?_, h1.1⟩, ?_⟩
      · intro hmem
        exact (h1.2 x hmem) (List.mem_cons_self x seen)
      · intro y hy
        rcases List.mem_cons.mp hy with rfl | hmem
        · exact hx
        · exact fun hseen => (h1.2 y hmem) (List.mem_cons_of_mem x hseen)

theorem dedupSeen_subset (xs : List String) :
    ∀ (seen : List String) (y : String), y ∈ dedupSeen seen xs → y ∈ xs := by
  induction xs with
  | nil => exact fun seen y hy => absurd hy (List.not_mem_nil y)
  | cons x xs ih =>
    intro seen y hy
    show y ∈ x :: xs
    by_cases hx : x ∈ seen
    · rw [show dedupSeen seen (x :: xs) = dedupSeen seen xs from if_pos hx] at hy
      exact List.mem_cons_of_mem x (ih seen y hy)
    · rw [show dedupSeen seen (x :: xs) = x :: dedupSeen (x :: seen) xs from if_neg hx] at hy
      rcases List.mem_cons.mp hy with rfl | hmem
      · exact List.mem_cons_self y xs
      · exact List.mem_cons_of_mem x (ih (x :: seen) y hmem)

theorem insStable_perm {α : Type} (goesAfter : α → α → Bool) (x : α) (l : List α) :
    List.Perm (insStable goesAfter x l) (x :: l) := by
  induction l with
  | nil => exact List.Perm.refl _
  | cons y ys ih =>
    show List.Perm (if goesAfter x y then y :: insStable goesAfter x ys else x :: y :: ys) _
    split
    · exact ((ih.cons y).trans (List.Perm.swap x y ys))
    · exact List.Perm.refl _

theorem sortStable_perm {α : Type} (goesAfter : α → α → Bool) (l : List α) :
    List.Perm (sortStable goesAfter l) l := by
  induction l with
  | nil => exact List.Perm.refl _
  | cons x xs ih =>
    show List.Perm (insStable goesAfter x (sortStable goesAfter xs)) (x :: xs)
    exact (insStable_perm goesAfter x _).trans (ih.cons x)

theorem POS_STANDARD_values (code std : String) (h : POS_STANDARD code = some std) :
    std ≠ "" ∧ ',' ∉ std.data := by
  unfold POS_STANDARD at h
  by_cases c0 : code = "n"
  · rw [if_pos c0] at h
    injection h with h1
    subst h1
    exact ⟨by decide, by decide⟩
  · rw [if_neg c0] at h
    by_cases c1 : code = "v"
    · rw [if_pos c1] at h
      injection h with h1
      subst h1
      exact ⟨by decide, by decide⟩
    · rw [if_neg c1] at h
      by_cases c2 : code = "a"
      · rw [if_pos c2] at h
        injection h with h1
        subst h1
        exact ⟨by decide, by decide⟩
      · rw [if_neg c2] at h
        by_cases c3 : code = "s"
        · rw [if_pos c3] at h
          injection h with h1
          subst h1
          exact ⟨by decide, by decide⟩
        · rw [if_neg c3] at h
          by_cases c4 : code = "r"
          · rw [if_pos c4] at h
            injection h with h1
            subst h1
            exact ⟨by decide, by decide⟩
          · rw [if_neg c4] at h
            by_cases c5 : code = "noun"
            · rw [if_pos c5] at h
              injection h with h1
              subst h1
              exact ⟨by decide, by decide⟩
            · rw [if_neg c5] at h
              by_cases c6 : code = "verb"
              · rw [if_pos c6] at h
                injection h with h1
                subst h1
                exact ⟨by decide, by decide⟩
              · rw [if_neg c6] at h
                by_cases c7 : code = "adj"
                · rw [if_pos c7] at h
                  injection h with h1
                  subst h1
                  exact ⟨by decide, by decide⟩
                · rw [if_neg c7] at h
                  by_cases c8 : code = "adjective"
                  · rw [if_pos c8] at h
                    injection h with h1
                    subst h1
                    exact ⟨by decide, by decide⟩
                  · rw [if_neg c8] at h
                    by_cases c9 : code = "adv"
                    · rw [if_pos c9] at h
                      injection h with h1
                      subst h1
                      exact ⟨by decide, by decide⟩
                    · rw [if_neg c9] at h
                      by_cases c10 : code = "adverb"
                      · rw [if_pos c10] at h
                        injection h with h1
                        subst h1
                        exact ⟨by decide, by decide⟩
                      · rw [if_neg c10] at h
                        by_cases c11 : code = "prep"
                        · rw [if_pos c11] at h
                          injection h with h1
                          subst h1
                          exact ⟨by decide, by decide⟩
                        · rw [if_neg c11] at h
                          by_cases c12 : code = "preposition"
                          · rw [if_pos c12] at h
                            injection h with h1
                            subst h1
                            exact ⟨by decide, by decide⟩
                          · rw [if_neg c12] at h
                            by_cases c13 : code = "pron"
                            · rw [if_pos c13] at h
                              injection h with h1
                              subst h1
                              exact ⟨by decide, by decide⟩
                            · rw [if_neg c13] at h
                              by_cases c14 : code = "pronoun"
                              · rw [if_pos c14] at h
                                injection h with h1
                                subst h1
                                exact ⟨by decide, by decide⟩
                              · rw [if_neg c14] at h
                                by_cases c15 : code = "conj"
                                · rw [if_pos c15] at h
                                  injection h with h1
                                  subst h1
                                  exact ⟨by decide, by decide⟩
                                · rw [if_neg c15] at h
                                  by_cases c16 : code = "conjunction"
                                  · rw [if_pos c16] at h
                                    injection h with h1
                                    subst h1
                                    exact ⟨by decide, by decide⟩
                                  · rw [if_neg c16] at h
                                    by_cases c17 : code = "det"
                                    · rw [if_pos c17] at h
                                      injection h with h1
                                      subst h1
                                      exact ⟨by decide, by decide⟩
                                    · rw [if_neg c17] at h
                                      by_cases c18 : code = "determiner"
                                      · rw [if_pos c18] at h
                                        injection h with h1
                                        subst h1
                                        exact ⟨by decide, by decide⟩
                                      · rw [if_neg c18] at h
                                        by_cases c19 : code = "interj"
                                        · rw [if_pos c19] at h
                                          injection h with h1
                                          subst h1
                                          exact ⟨by decide, by decide⟩
                                        · rw [if_neg c19] at h
                                          by_cases c20 : code = "interjection"
                                          · rw [if_pos c20] at h
                                            injection h with h1
                                            subst h1
                                            exact ⟨by decide, by decide⟩
                                          · rw [if_neg c20] at h
                                            by_cases c21 : code = "art"
                                            · rw [if_pos c21] at h
                                              injection h with h1
                                              subst h1
                                              exact ⟨by decide, by decide⟩
                                            · rw [if_neg c21] at h
                                              by_cases c22 : code = "article"
                                              · rw [if_pos c22] at h
                                                injection h with h1
                                                subst h1
                                                exact ⟨by decide, by decide⟩
                                              · rw [if_neg c22] at h
                                                by_cases c23 : code = "vt"
                                                · rw [if_pos c23] at h
                                                  injection h with h1
                                                  subst h1
                                                  exact ⟨by decide, by decide⟩
                                                · rw [if_neg c23] at h
                                                  by_cases c24 : code = "vi"
                                                  · rw [if_pos c24] at h
                                                    injection h with h1
                                                    subst h1
                                                    exact ⟨by decide, by decide⟩
                                                  · rw [if_neg c24] at h
                                                    by_cases c25 : code = "vt."
                                                    · rw [if_pos c25] at h
                                                      injection h with h1
                                                      subst h1
                                                      exact ⟨by decide, by decide⟩
                                                    · rw [if_neg c25] at h
                                                      by_cases c26 : code = "vi."
                                                      · rw [if_pos c26] at h
                                                        injection h with h1
                                                        subst h1
                                                        exact ⟨by decide, by decide⟩
                                                      · rw [if_neg c26] at h
                                                        by_cases c27 : code = "n."
                                                        · rw [if_pos c27] at h
                                                          injection h with h1
                                                          subst h1
                                                          exact ⟨by decide, by decide⟩
                                                        · rw [if_neg c27] at h
                                                          by_cases c28 : code = "v."
                                                          · rw [if_pos c28] at h
                                                            injection h with h1
                                                            subst h1
                                                            exact ⟨by decide, by decide⟩
                                                          · rw [if_neg c28] at h
                                                            by_cases c29 : code = "adj."
                                                            · rw [if_pos c29] at h
                                                              injection h with h1
                                                              subst h1
                                                              exact ⟨by decide, by decide⟩
                                                            · rw [if_neg c29] at h
                                                              by_cases c30 : code = "adv."
                                                              · rw [if_pos c30] at h
                                                                injection h with h1
                                                                subst h1
                                                                exact ⟨by decide, by decide⟩
                                                              · rw [if_neg c30] at h
                                                                by_cases c31 : code = "j"
                                                                · rw [if_pos c31] at h
                                                                  injection h with h1
                                                                  subst h1
                                                                  exact ⟨by decide, by decide⟩
                                                                · rw [if_neg c31] at h
                                                                  by_cases c32 : code = "t"
                                                                  · rw [if_pos c32] at h
                                                                    injection h with h1
                                                                    subst h1
                                                                    exact ⟨by decide, by decide⟩
                                                                  · rw [if_neg c32] at h
                                                                    by_cases c33 : code = "u"
                                                                    · rw [if_pos c33] at h
                                                                      injection h with h1
                                                                      subst h1
                                                                      exact ⟨by decide, by decide⟩
                                                                    · rw [if_neg c33] at h
                                                                      exact Option.noConfusion h

theorem getD_props (code : String) (h : (POS_STANDARD code).getD "" ≠ "") :
    (POS_STANDARD code).getD "" ≠ "" ∧ ',' ∉ ((POS_STANDARD code).getD "").data := by
  refine ⟨h, ?_⟩
  rcases hm : POS_STANDARD code with _ | v
  · exact absurd (by rw [hm]; rfl) h
  · exact (POS_STANDARD_values code v hm).2

theorem parsePart_some_props (part : String) (x : String × Int)
    (h : parsePart part = Except.ok (some x)) :
    x.1 ≠ "unknown" ∧ x.1 ≠ "" ∧ ',' ∉ x.1.data := by
  unfold parsePart at h
  split_ifs at h with hc
  · revert h
    rcases strSplitChar ':' part with _ | ⟨a, rest⟩
    · intro h
      cases h
    · rcases rest with _ | ⟨b, rest2⟩
      · intro h
        cases h
      · rcases rest2 with _ | ⟨c, rest3⟩
        · dsimp only
          split_ifs with hstd
          · intro h
            cases h
            have hp := getD_props (pyLower (pyStrip a)) hstd.1
            exact ⟨hstd.2, hp.1, hp.2⟩
          · intro h
            cases h
        · intro h
          cases h
  · cases h

theorem collectParts_mem_props (parts : List String) (pf : List (String × Int))
    (h : collectParts parts = Except.ok pf) :
    ∀ x ∈ pf, x.1 ≠ "unknown" ∧ x.1 ≠ "" ∧ ',' ∉ x.1.data := by
  induction parts generalizing pf with
  | nil =>
    cases h
    exact fun x hx => absurd hx (List.not_mem_nil x)
  | cons p ps ih =>
    rw [collectParts] at h
    revert h
    rcases hp : parsePart p with msg | o
    · intro h
      cases h
    · rcases o with _ | x0
      · intro h
        exact ih pf h
      · rcases hps : collectParts ps with msg | xs
        · intro h
          cases h
        · intro h
          cases h
          intro x hx
          rcases List.mem_cons.mp hx with rfl | hmem
          · exact parsePart_some_props p x hp
          · exact ih xs hps x hmem

theorem normalize_pos_ok_shape (raw s : String) (h : normalize_pos raw = Except.ok s) :
    ∃ tags : List String, s = String.intercalate "," tags ∧ tags.Nodup ∧
      "unknown" ∉ tags ∧ ∀ t ∈ tags, t ≠ "" ∧ ',' ∉ t.data := by
  unfold normalize_pos at h
  split_ifs at h with h1 h2
  · cases h
    exact ⟨[], rfl, List.nodup_nil, List.not_mem_nil _,
      fun t ht => absurd ht (List.not_mem_nil t)⟩
  · revert h
    rcases hcp : collectParts (strSplitChar '/' raw) with msg | pf
    · intro h
      cases h
    · intro h
      cases h
      have hperm : List.Perm ((sortByFreqDesc pf).map Prod.fst) (pf.map Prod.fst) :=
        (sortStable_perm _ pf).map Prod.fst
      refine ⟨_, rfl, (dedupSeen_nodup_and_fresh _ []).1, ?_, ?_⟩
      · intro hmem
        have hmem2 := dedupSeen_subset _ [] _ hmem
        have hmem3 : "unknown" ∈ pf.map Prod.fst := hperm.mem_iff.mp hmem2
        obtain ⟨x, hx, hx1⟩ := List.mem_map.mp hmem3
        exact (collectParts_mem_props _ pf hcp x hx).1 hx1
      · intro t ht
        have ht2 := dedupSeen_subset _ [] _ ht
        have ht3 : t ∈ pf.map Prod.fst := hperm.mem_iff.mp ht2
        obtain ⟨x, hx, hx1⟩ := List.mem_map.mp ht3
        have hxp := collectParts_mem_props _ pf hcp x hx
        rw [← hx1]
        exact ⟨hxp.2.1, hxp.2.2⟩
  · cases h
    split_ifs with hstd
    · refine ⟨[_], rfl, List.nodup_singleton _,
        fun hmem => hstd.2 ((List.mem_singleton.mp hmem).symm), ?_⟩
      intro t ht
      rw [List.mem_singleton.mp ht]
      exact getD_props _ hstd.1
    · exact ⟨[], rfl, List.nodup_nil, List.not_mem_nil _,
        fun t ht => absurd ht (List.not_mem_nil t)⟩

theorem bumpCount_keys_mem (k : String) (l : List (String × Nat)) (x : String)
    (h : x ∈ (bumpCount k l).map Prod.fst) : x ∈ l.map Prod.fst ∨ x = k := by
  induction l with
  | nil =>
    have h' : x ∈ ([k] : List String) := by simpa [bumpCount] using h
    rcases List.mem_cons.mp h' with rfl | hh
    · exact Or.inr rfl
    · exact absurd hh (List.not_mem_nil x)
  | cons p ps ih =>
    by_cases hpk : p.1 = k
    · rw [show bumpCount k (p :: ps) = (p.1, p.2 + 1) :: ps from if_pos hpk,
        List.map_cons] at h
      rw [List.map_cons]
      exact Or.inl h
    · rw [show bumpCount k (p :: ps) = p :: bumpCount k ps from if_neg hpk,
        List.map_cons] at h
      rcases List.mem_cons.mp h with rfl | hh
      · exact Or.inl (by rw [List.map_cons]; exact List.mem_cons_self _ _)
      · rcases ih hh with h1 | h1
        · exact Or.inl (by rw [List.map_cons]; exact List.mem_cons_of_mem _ h1)
        · exact Or.inr h1

theorem bumpCount_keys_nodup (k : String) (l : List (String × Nat))
    (h : (l.map Prod.fst).Nodup) : ((bumpCount k l).map Prod.fst).Nodup := by
  induction l with
  | nil => simp [bumpCount]
  | cons p ps ih =>
    rw [List.map_cons, List.nodup_cons] at h
    by_cases hpk : p.1 = k
    · rw [show bumpCount k (p :: ps) = (p.1, p.2 + 1) :: ps from if_pos hpk,
        List.map_cons]
      exact List.nodup_cons.mpr h
    · rw [show bumpCount k (p :: ps) = p :: bumpCount k ps from if_neg hpk,
        List.map_cons]
      refine List.nodup_cons.mpr ⟨?_, ih h.2⟩
      intro hmem
      rcases bumpCount_keys_mem k ps p.1 hmem with h1 | h1
      · exact h.1 h1
      · exact hpk h1

theorem countStep_eq (acc : List (String × Nat)) (code : String) :
    countStep acc code =
      if (POS_STANDARD code).getD "" ≠ "" ∧ (POS_STANDARD code).getD "" ≠ "unknown"
      then bumpCount ((POS_STANDARD code).getD "") acc else acc := rfl

theorem countStd_fold_inv (syn : List String) :
    ∀ acc : List (String × Nat),
      (acc.map Prod.fst).Nodup →
      (∀ x ∈ acc.map Prod.fst, x ≠ "unknown" ∧ x ≠ "" ∧ ',' ∉ x.data) →
      ((syn.foldl countStep acc).map Prod.fst).Nodup ∧
        ∀ x ∈ (syn.foldl countStep acc).map Prod.fst,
          x ≠ "unknown" ∧ x ≠ "" ∧ ',' ∉ x.data := by
  induction syn with
  | nil => exact fun acc h1 h2 => ⟨h1, h2⟩
  | cons code rest ih =>
    intro acc h1 h2
    rw [List.foldl_cons, countStep_eq]
    by_cases hstd : (POS_STANDARD code).getD "" ≠ "" ∧ (POS_STANDARD code).getD "" ≠ "unknown"
    · rw [if_pos hstd]
      refine ih _ (bumpCount_keys_nodup _ acc h1) ?_
      intro x hx
      rcases bumpCount_keys_mem _ acc x hx with hh | hh
      · exact h2 x hh
      · rw [hh]
        have hp := getD_props code hstd.1
        exact ⟨hstd.2, hp.1, hp.2⟩
    · rw [if_neg hstd]
      exact ih acc h1 h2

theorem countStd_keys (syn : List String) :
    ((countStd syn).map Prod.fst).Nodup ∧
      ∀ x ∈ (countStd syn).map Prod.fst, x ≠ "unknown" ∧ x ≠ "" ∧ ',' ∉ x.data :=
  countStd_fold_inv syn [] List.nodup_nil (fun x hx => absurd hx (List.not_mem_nil x))

theorem get_pos_from_wordnet_shape (wnAvail : Bool) (syn : List String) :
    ∃ tags : List String, get_pos_from_wordnet wnAvail syn = String.intercalate "," tags ∧
      tags.Nodup ∧ "unknown" ∉ tags ∧ ∀ t ∈ tags, t ≠ "" ∧ ',' ∉ t.data := by
  unfold get_pos_from_wordnet
  split_ifs with h1 h2
  · exact ⟨[], rfl, List.nodup_nil, List.not_mem_nil _,
      fun t ht => absurd ht (List.not_mem_nil t)⟩
  · exact ⟨[], rfl, List.nodup_nil, List.not_mem_nil _,
      fun t ht => absurd ht (List.not_mem_nil t)⟩
  · have hperm : List.Perm
        ((sortStable (fun x y => decide (x.2 < y.2)) (countStd syn)).map Prod.fst)
        ((countStd syn).map Prod.fst) :=
      (sortStable_perm _ (countStd syn)).map Prod.fst
    refine ⟨(sortStable (fun x y => decide (x.2 < y.2)) (countStd syn)).map Prod.fst,
      rfl, hperm.nodup_iff.mpr (countStd_keys syn).1, ?_, ?_⟩
    · intro hmem
      exact ((countStd_keys syn).2 _ (hperm.mem_iff.mp hmem)).1 rfl
    · intro t ht
      have := (countStd_keys syn).2 t (hperm.mem_iff.mp ht)
      exact ⟨this.2.1, this.2.2⟩

theorem enrich_pos_entry_shape (wnAvail : Bool) (synsets : String → List String)
    (w : String) (e e' : WordEntry)
    (h : enrich_pos_entry wnAvail synsets w e = Except.ok e') :
    ∃ tags : List String, e'.pos = String.intercalate "," tags ∧ tags.Nodup ∧
      "unknown" ∉ tags ∧ ∀ t ∈ tags, t ≠ "" ∧ ',' ∉ t.data := by
  unfold enrich_pos_entry at h
  revert h
  rcases hn : (if e.pos ≠ "" then normalize_pos e.pos else Except.ok e.pos) with msg | newPos
  · intro h
    cases h
  · dsimp only
    by_cases hcond : ({ e with pos := newPos } : WordEntry).pos = "" ∧ wnAvail = true
    · rw [if_pos hcond]
      by_cases hwp : get_pos_from_wordnet wnAvail (synsets w) ≠ ""
      · rw [if_pos hwp]
        intro h
        have he := Except.ok.inj h
        subst he
        exact get_pos_from_wordnet_shape wnAvail (synsets w)
      · rw [if_neg hwp]
        intro h
        have he := Except.ok.inj h
        subst he
        exact ⟨[], hcond.1, List.nodup_nil, List.not_mem_nil _,
          fun t ht => absurd ht (List.not_mem_nil t)⟩
    · rw [if_neg hcond]
      intro h
      have he := Except.ok.inj h
      subst he
      show ∃ tags, newPos = String.intercalate "," tags ∧ _
      revert hn
      split_ifs with hne
      · intro hn
        exact normalize_pos_ok_shape e.pos newPos hn
      · intro hn
        have hpn : e.pos = newPos := Except.ok.inj hn
        rw [← hpn]
        have hempty : e.pos = "" := by
          revert hne
          by_cases hp : e.pos = ""
          · intro _
            exact hp
          · intro hne
            exact absurd hp (by simpa using hne)
        rw [hempty]
        exact ⟨[], rfl, List.nodup_nil, List.not_mem_nil _,
          fun t ht => absurd ht (List.not_mem_nil t)⟩

theorem exceptMapEntries_mem (f : String → WordEntry → Except String WordEntry)
    (l l' : WordsMap) (h : exceptMapEntries f l = Except.ok l') :
    ∀ q ∈ l', ∃ p, p ∈ l ∧ f p.1 p.2 = Except.ok q.2 := by
  induction l generalizing l' with
  | nil =>
    cases h
    exact fun q hq => absurd hq (List.not_mem_nil q)
  | cons p ps ih =>
    rw [exceptMapEntries] at h
    revert h
    rcases hf : f p.1 p.2 with msg | e
    · intro h
      cases h
    · rcases hrest : exceptMapEntries f ps with msg | rest
      · intro h
        cases h
      · intro h
        have he := Except.ok.inj h
        subst he
        intro q hq
        rcases List.mem_cons.mp hq with rfl | hmem
        · exact ⟨p, List.mem_cons_self p ps, hf⟩
        · obtain ⟨p', hp', hfp'⟩ := ih rest hrest q hmem
          exact ⟨p', List.mem_cons_of_mem p hp', hfp'⟩

theorem splitCharAux_no_sep (t : List Char) :
    ∀ cur : List Char, ',' ∉ t → splitCharAux ',' t cur = [⟨cur.reverse ++ t⟩] := by
  induction t with
  | nil =>
    intro cur _
    show [(⟨cur.reverse⟩ : String)] = [⟨cur.reverse ++ []⟩]
    rw [List.append_nil]
  | cons c t' ih =>
    intro cur hc
    have hcne : ¬(c = ',') := fun hh => hc (hh ▸ List.mem_cons_self c t')
    show (if c = ',' then ⟨cur.reverse⟩ :: splitCharAux ',' t' []
      else splitCharAux ',' t' (c :: cur)) = _
    rw [if_neg hcne, ih (c :: cur) (fun hm => hc (List.mem_cons_of_mem c hm))]
    rw [List.reverse_cons, List.append_assoc]
    rfl

theorem splitCharAux_sep (t : List Char) :
    ∀ (rest cur : List Char), ',' ∉ t →
      splitCharAux ',' (t ++ ',' :: rest) cur =
        ⟨cur.reverse ++ t⟩ :: splitCharAux ',' rest [] := by
  induction t with
  | nil =>
    intro rest cur _
    show (if ',' = ',' then ⟨cur.reverse⟩ :: splitCharAux ',' rest []
      else splitCharAux ',' rest (',' :: cur)) = _
    rw [if_pos rfl, List.append_nil]
  | cons c t' ih =>
    intro rest cur hc
    have hcne : ¬(c = ',') := fun hh => hc (hh ▸ List.mem_cons_self c t')
    show (if c = ',' then ⟨cur.reverse⟩ :: splitCharAux ',' (t' ++ ',' :: rest) []
      else splitCharAux ',' (t' ++ ',' :: rest) (c :: cur)) = _
    rw [if_neg hcne, ih rest (c :: cur) (fun hm => hc (List.mem_cons_of_mem c hm))]
    rw [List.reverse_cons, List.append_assoc]
    rfl

theorem splitCharAux_interData (tags : List String) :
    ∀ (pre cur : List Char), (∀ t ∈ tags, ',' ∉ t.data) → ',' ∉ pre →
      splitCharAux ',' (pre ++ interData tags) cur = ⟨cur.reverse ++ pre⟩ :: tags := by
  induction tags with
  | nil =>
    intro pre cur _ hpre
    rw [show interData [] = [] from rfl, List.append_nil]
    exact splitCharAux_no_sep pre cur hpre
  | cons u us ih =>
    intro pre cur h hpre
    rw [show interData (u :: us) = ',' :: (u.data ++ interData us) from rfl]
    rw [splitCharAux_sep pre (u.data ++ interData us) cur hpre]
    rw [ih u.data [] (fun t ht => h t (List.mem_cons_of_mem u ht))
      (h u (List.mem_cons_self u us))]
    rfl

theorem intercalate_go_data (as : List String) :
    ∀ acc : String, (String.intercalate.go acc "," as).data = acc.data ++ interData as := by
  induction as with
  | nil =>
    intro acc
    show acc.data = acc.data ++ []
    rw [List.append_nil]
  | cons a as ih =>
    intro acc
    show (String.intercalate.go (acc ++ "," ++ a) "," as).data =
      acc.data ++ (',' :: (a.data ++ interData as))
    rw [ih (acc ++ "," ++ a), String_data_append, String_data_append]
    rw [List.append_assoc, List.append_assoc]
    rfl

theorem posTags_intercalate (tags : List String)
    (hprops : ∀ t ∈ tags, t ≠ "" ∧ ',' ∉ t.data) :
    posTags (String.intercalate "," tags) = tags := by
  cases tags with
  | nil => rfl
  | cons t ts =>
    have hdata : (String.intercalate "," (t :: ts)).data = t.data ++ interData ts := by
      show (String.intercalate.go t "," ts).data = _
      exact intercalate_go_data ts t
    have htne : t.data ≠ [] := by
      intro hh
      apply (hprops t (List.mem_cons_self t ts)).1
      rcases t with ⟨ld⟩
      simp only at hh
      rw [hh]
    have hne : String.intercalate "," (t :: ts) ≠ "" := by
      intro hh
      apply htne
      have : (String.intercalate "," (t :: ts)).data = [] := by
        rw [hh]
      rw [hdata] at this
      exact List.append_eq_nil.mp this |>.1
    unfold posTags
    rw [if_neg hne]
    show splitCharAux ',' (String.intercalate "," (t :: ts)).data [] = t :: ts
    rw [hdata]
    rw [splitCharAux_interData ts t.data []
      (fun u hu => (hprops u (List.mem_cons_of_mem t hu)).2)
      (hprops t (List.mem_cons_self t ts)).2]
    rfl

/-- C7: after the part-of-speech normalization and fallback step, the tag
sequence carried by every entry's comma-joined `pos` field — the field split
on `','` when non-empty — contains no duplicate tags, and does not contain
`unknown` whenever at least one concrete (non `unknown`) tag is present. -/
theorem c7_pos_invariant (wnAvail : Bool) (synsets : String → List String)
    (l l' : WordsMap) (h : enrich_with_pos wnAvail synsets l = Except.ok l') :
    ∀ p ∈ l', (posTags p.2.pos).Nodup ∧
      ((∃ t ∈ posTags p.2.pos, t ≠ "unknown") → "unknown" ∉ posTags p.2.pos) := by
  intro p hp
  obtain ⟨q, hq, hf⟩ := exceptMapEntries_mem (enrich_pos_entry wnAvail synsets) l l' h p hp
  obtain ⟨tags, h1, h2, h3, h4⟩ := enrich_pos_entry_shape wnAvail synsets q.1 q.2 p.2 hf
  rw [h1, posTags_intercalate tags h4]
  exact ⟨h2, fun _ => h3⟩

/-- C7 witness: a concrete table whose single entry has the raw ECDICT pos
string `a:99/t:1`, normalized to `adj,v`, whose comma-split tag list is
`[adj, v]`. -/
theorem c7_pos_invariant_witness :
    enrich_with_pos false (fun _ => []) [("ab", { word := "ab", pos := "a:99/t:1" })] =
      Except.ok [("ab", { word := "ab", pos := "adj,v" })] ∧
    posTags "adj,v" = ["adj", "v"] ∧
    ((posTags (({ word := "ab", pos := "adj,v" } : WordEntry)).pos).Nodup ∧
      ((∃ t ∈ posTags (({ word := "ab", pos := "adj,v" } : WordEntry)).pos, t ≠ "unknown") →
        "unknown" ∉ posTags (({ word := "ab", pos := "adj,v" } : WordEntry)).pos)) :=
  ⟨rfl, by decide,
   c7_pos_invariant false (fun _ => []) [("ab", { word := "ab", pos := "a:99/t:1" })]
     [("ab", { word := "ab", pos := "adj,v" })] rfl
     ("ab", { word := "ab", pos := "adj,v" }) (List.mem_singleton.mpr rfl)⟩

/-! ## C4: the lexical validity filter -/

theorem a1_len : ∀ s ∈ ALLOWED_SINGLE_LETTERS, s.length = 1 := by decide

theorem a2_len : ∀ s ∈ ALLOWED_TWO_LETTERS, s.length = 2 := by decide

theorem a1_pats : ∀ s ∈ ALLOWED_SINGLE_LETTERS,
    pat_digits s.data = false ∧ pat_noalpha s.data = false ∧
    pat_hasdigit s.data = false ∧ pat_repeat s.data = false := by decide

theorem a2_pats : ∀ s ∈ ALLOWED_TWO_LETTERS,
    pat_digits s.data = false ∧ pat_noalpha s.data = false ∧
    pat_hasdigit s.data = false ∧ pat_repeat s.data = false := by decide

theorem pats_nil : pat_digits [] = false ∧ pat_noalpha [] = false ∧ pat_single [] = false ∧
    pat_hasdigit [] = false ∧ pat_repeat [] = false ∧ pat_smallword [] = false := by decide

theorem dropNl_length_ge (l : List Char) : l.length ≤ (dropNl l).length + 1 := by
  unfold dropNl
  split
  · rw [List.length_dropLast]
    omega
  · omega

theorem pat_single_len (l : List Char) (h : pat_single l = true) : (dropNl l).length = 1 := by
  unfold pat_single at h
  cases hd : dropNl l with
  | nil =>
    rw [hd] at h
    exact Bool.noConfusion h
  | cons c rest =>
    cases rest with
    | nil => rfl
    | cons d r =>
      rw [hd] at h
      exact Bool.noConfusion h

/-- C4: the lexical validity filter rejects a candidate exactly under the
specification's flat disjunction — stop-word, unlisted single character,
unlisted two-character form, or one of the exclusion patterns with the bare
1-2 letter pattern qualified by the allow-lists — and the eight concrete
examples behave as claimed. -/
theorem c4_validity_filter :
    (∀ word : String, is_valid_word word = false ↔ spec_reject word = true) ∧
    is_valid_word "aaa" = false ∧ is_valid_word "123" = false ∧
    is_valid_word "lol" = false ∧ is_valid_word "x" = false ∧
    is_valid_word "a" = true ∧ is_valid_word "i" = true ∧
    is_valid_word "ok" = true ∧ is_valid_word "resilience" = true := by
  refine ⟨fun word => ?_, by decide, by decide, by decide, by decide,
    by decide, by decide, by decide, by decide⟩
  have hlen : (pyLower word).length = word.length := List.length_map word.data Char.toLower
  simp only [is_valid_word, spec_reject]
  set u := pyLower word with hu
  by_cases hS : u ∈ STOPWORDS
  · simp [hS]
  · by_cases h1 : word.length = 1
    · by_cases hA : u ∈ ALLOWED_SINGLE_LETTERS
      · have hp := a1_pats u hA
        simp [hS, h1, hA, hp.1, hp.2.1, hp.2.2.1, hp.2.2.2]
      · simp [hS, h1, hA]
    · by_cases h2 : word.length = 2
      · by_cases hA2 : u ∈ ALLOWED_TWO_LETTERS
        · have hp := a2_pats u hA2
          simp [hS, h1, h2, hA2, hp.1, hp.2.1, hp.2.2.1, hp.2.2.2]
        · simp [hS, h1, h2, hA2]
      · by_cases h0 : word.length = 0
        · have hdat : u.data = [] := by
            have hul : u.length = 0 := by
              rw [hlen]
              exact h0
            exact List.length_eq_zero.mp hul
          simp [hS, h1, h2, hdat, pats_nil.1, pats_nil.2.1, pats_nil.2.2.1,
            pats_nil.2.2.2.1, pats_nil.2.2.2.2.1, pats_nil.2.2.2.2.2]
        · have h3 : 3 ≤ word.length := by omega
          have hA1 : u ∉ ALLOWED_SINGLE_LETTERS := by
            intro hmem
            have hl := a1_len u hmem
            rw [hlen] at hl
            omega
          have hA2 : u ∉ ALLOWED_TWO_LETTERS := by
            intro hmem
            have hl := a2_len u hmem
            rw [hlen] at hl
            omega
          have hsingle : pat_single u.data = false := by
            cases hps : pat_single u.data
            · rfl
            · exfalso
              have hl1 := pat_single_len u.data hps
              have hge := dropNl_length_ge u.data
              have hud : u.data.length = word.length := hlen
              omega
          cases hp1 : pat_digits u.data <;> cases hp2 : pat_noalpha u.data <;>
            cases hp4 : pat_hasdigit u.data <;> cases hp5 : pat_repeat u.data <;>
            cases hp6 : pat_smallword u.data <;>
            simp [hS, h1, h2, hA1, hA2, hsingle, hp1, hp2, hp4, hp5, hp6]
